import Mathlib

/-!
# Verification of the MCBE-IPC transport/protocol stack

A shallow embedding of the core of `src/ipc.ts` (both the current
`PROTO`/`NET` variant and the older `SERDE`/`ByteArray` variant that is
concatenated into the same file), together with proofs and refutations of
the frozen claims about it.

Modelling conventions:
* JS byte streams (`Uint8Array` contents) are `List Nat` with every entry
  `< 256`; storing into a `Uint8Array` coerces modulo 256.
* JS strings are lists of UTF-16 code units, i.e. `List Nat`.
* JS `x & 0x7f` is `x % 128` (mask of the low 7 bits), `x & 0xff` is
  `x % 256`, `x >>> k` is `x / 2 ^ k`, and an `|` of values occupying
  disjoint bit ranges is addition; where a definition uses the arithmetic
  form instead of `&&&`/`>>>`/`|||` a comment records the original operator.
* generator suspension points (`yield`) have no observable effect and are
  dropped.
-/

namespace MCBEIPC

/-- `a ||| (b <<< k) = a + b <<< k` when `a` fits in the low `k` bits:
an `|` of disjoint bit ranges is addition. -/
theorem lor_shiftLeft_eq_add {a b k : Nat} (ha : a < 2 ^ k) :
    a ||| (b <<< k) = a + b <<< k := by
  have h := Nat.mul_add_lt_is_or (b := a) ha b
  rw [Nat.shiftLeft_eq, Nat.mul_comm b (2 ^ k), Nat.lor_comm, ← h, Nat.add_comm]

/-! ## CRYPTO (`src/ipc.ts`, `namespace CRYPTO`)

`mod_exp` is the square-and-multiply loop; `make_public`/`make_shared`
wrap it with the hex-string rendering `to_HEX` / parsing `to_NUM`
(`toString(16).toUpperCase()` / `parseInt(·, 16)`).  All arithmetic is
exact as long as intermediate products fit in a double (`p ^ 2 < 2 ^ 53`),
which the claims assume; naturals model it exactly. -/

namespace CRYPTO

def PRIME : Nat := 19893121

def MOD : Nat := 341

/-- One hex digit rendered as an uppercase UTF-16 code unit (`0`-`9`, `A`-`F`). -/
def hexDigitChar (d : Nat) : Nat := if d < 10 then 48 + d else 55 + d

/-- Numeric value of a hex-digit code unit, as `parseInt(·, 16)` reads the
digits that `toString(16).toUpperCase()` emits. -/
def hexDigitVal (c : Nat) : Nat := if c ≤ 57 then c - 48 else c - 55

/-- Digits of `n.toString(16)` for `n > 0`, most significant first. -/
def hexDigitsAux : Nat → List Nat
  | 0 => []
  | n + 1 => hexDigitsAux ((n + 1) / 16) ++ [hexDigitChar ((n + 1) % 16)]
decreasing_by simp_wf; omega

/-- `to_HEX`: `n.toString(16).toUpperCase()` as a code-unit list (`0` renders as `"0"`). -/
def to_HEX (n : Nat) : List Nat := if n = 0 then [hexDigitChar 0] else hexDigitsAux n

/-- `to_NUM`: `parseInt(h, 16)` on the hex alphabet `to_HEX` emits. -/
def to_NUM (h : List Nat) : Nat := h.foldl (fun acc c => 16 * acc + hexDigitVal c) 0

theorem hexDigitVal_hexDigitChar {d : Nat} (hd : d < 16) :
    hexDigitVal (hexDigitChar d) = d := by
  interval_cases d <;> decide

theorem foldl_hexDigitsAux (n : Nat) :
    ∀ a, (hexDigitsAux n).foldl (fun acc c => 16 * acc + hexDigitVal c) a
      = a * 16 ^ (hexDigitsAux n).length + n := by
  induction n using Nat.strong_induction_on with
  | _ n ih =>
    intro a
    match n with
    | 0 => simp [hexDigitsAux]
    | m + 1 =>
      rw [hexDigitsAux]
      have hlt : (m + 1) / 16 < m + 1 := by omega
      rw [List.foldl_append, ih _ hlt]
      simp only [List.foldl_cons, List.foldl_nil, List.length_append, List.length_cons,
        List.length_nil]
      rw [hexDigitVal_hexDigitChar (by omega)]
      have : 16 * ((m + 1) / 16) + (m + 1) % 16 = m + 1 := by omega
      ring_nf
      omega

theorem to_NUM_to_HEX (n : Nat) : to_NUM (to_HEX n) = n := by
  by_cases h : n = 0
  · subst h; decide
  · rw [to_HEX, if_neg h, to_NUM, foldl_hexDigitsAux]
    simp

/-- The `for (let e = exp; e > 0; e = Math.floor(e / 2))` body of `mod_exp`:
multiply the accumulator in on odd `e`, square the base every iteration. -/
def modExpLoop (result b e m : Nat) : Nat :=
  if e > 0 then
    modExpLoop (if e % 2 = 1 then result * b % m else result) (b * b % m) (e / 2) m
  else result
termination_by e
decreasing_by simp_wf; omega

/-- `CRYPTO.mod_exp`: fast modular exponentiation by square-and-multiply. -/
def mod_exp (base exp m : Nat) : Nat := modExpLoop 1 (base % m) exp m

theorem modExpLoop_eq {m : Nat} (hm : 0 < m) :
    ∀ e r b, modExpLoop (r % m) (b % m) e m = r * b ^ e % m := by
  intro e
  induction e using Nat.strong_induction_on with
  | _ e ih =>
    intro r b
    rcases Nat.eq_zero_or_pos e with he | he
    · subst he
      rw [modExpLoop]
      simp
    · rw [modExpLoop, if_pos he]
      have hb' : b % m * (b % m) % m = b * b % m := by conv_rhs => rw [Nat.mul_mod]
      have hr' : r % m * (b % m) % m = r * b % m := by conv_rhs => rw [Nat.mul_mod]
      have hbb : (b * b) ^ (e / 2) = b ^ (2 * (e / 2)) := by
        rw [pow_mul, pow_two]
      by_cases hodd : e % 2 = 1
      · rw [if_pos hodd, hr', hb', ih (e / 2) (by omega) (r * b) (b * b)]
        congr 1
        rw [hbb, Nat.mul_assoc, ← pow_succ']
        have h2 : 2 * (e / 2) + 1 = e := by omega
        rw [h2]
      · rw [if_neg hodd, hb', ih (e / 2) (by omega) r (b * b)]
        congr 1
        rw [hbb]
        have h2 : 2 * (e / 2) = e := by omega
        rw [h2]

theorem mod_exp_eq {p : Nat} (hp : 1 < p) (g a : Nat) : mod_exp g a p = g ^ a % p := by
  have h1 : (1 : Nat) % p = 1 := Nat.mod_eq_of_lt hp
  have := modExpLoop_eq (m := p) (by omega) a 1 g
  rw [h1] at this
  rw [mod_exp, this, Nat.one_mul]

/-- `CRYPTO.make_public(secret, mod, prime) = to_HEX(mod_exp(mod, secret, prime))`. -/
def make_public (secret m prime : Nat) : List Nat := to_HEX (mod_exp m secret prime)

/-- `CRYPTO.make_shared(secret, other, prime) = to_HEX(mod_exp(to_NUM(other), secret, prime))`. -/
def make_shared (secret : Nat) (other : List Nat) (prime : Nat) : List Nat :=
  to_HEX (mod_exp (to_NUM other) secret prime)

end CRYPTO

/-- C8: for `g`, `a ≥ 1`, `b ≥ 1`, `p > 1` with `p ^ 2 < 2 ^ 53` (so every
intermediate product of `mod_exp` is exact in a double, as the naturals model
it), the two sides of the Diffie–Hellman exchange agree:
`make_shared(a, make_public(b, g, p), p) = make_shared(b, make_public(a, g, p), p)`,
equivalently `mod_exp(mod_exp(g,a,p),b,p) = mod_exp(mod_exp(g,b,p),a,p)`; and
`mod_exp` computes exact modular exponentiation. -/
theorem dh_key_agreement (g a b p : Nat) (ha : 1 ≤ a) (hb : 1 ≤ b) (hp : 1 < p)
    (hfit : p ^ 2 < 2 ^ 53) :
    CRYPTO.make_shared a (CRYPTO.make_public b g p) p
      = CRYPTO.make_shared b (CRYPTO.make_public a g p) p
  ∧ CRYPTO.mod_exp (CRYPTO.mod_exp g a p) b p = CRYPTO.mod_exp (CRYPTO.mod_exp g b p) a p
  ∧ CRYPTO.mod_exp g a p = g ^ a % p := by
  have key : ∀ x y : Nat, CRYPTO.mod_exp (CRYPTO.mod_exp g x p) y p = g ^ (x * y) % p := by
    intro x y
    rw [CRYPTO.mod_exp_eq hp, CRYPTO.mod_exp_eq hp, ← Nat.pow_mod, ← pow_mul]
  refine ⟨?_, ?_, CRYPTO.mod_exp_eq hp g a⟩
  · rw [CRYPTO.make_shared, CRYPTO.make_shared, CRYPTO.make_public, CRYPTO.make_public,
      CRYPTO.to_NUM_to_HEX, CRYPTO.to_NUM_to_HEX]
    rw [key b a, key a b, Nat.mul_comm]
  · rw [key a b, key b a, Nat.mul_comm]

/-- Witness for C8 at the spec's concrete instance `p = 23`, `g = 5`,
`a = 6`, `b = 15`. -/
theorem dh_key_agreement_witness :
    (1 ≤ 6 ∧ 1 ≤ 15 ∧ 1 < 23 ∧ 23 ^ 2 < 2 ^ 53)
  ∧ CRYPTO.make_shared 6 (CRYPTO.make_public 15 5 23) 23
      = CRYPTO.make_shared 15 (CRYPTO.make_public 6 5 23) 23 :=
  ⟨by decide, (dh_key_agreement 5 6 15 23 (by decide) (by decide) (by decide) (by decide)).1⟩

/-! ## PROTO.Buffer (`src/ipc.ts`, `class Buffer`)

Growable double-ended byte storage: a backing `Uint8Array` (zero-initialised
on construction, entries coerced modulo 256 on store), a live `length` and a
front `offset`.  `reserve` grows the end, `consume` shrinks from the front and
throws `'not enough bytes'` on underflow; `ensure_capacity` reallocates at
twice the needed size, copying the live window to offset 0. -/

namespace PROTO

structure Buffer where
  buffer : List Nat
  length : Nat
  offset : Nat

namespace Buffer

/-- `new Buffer(size)` (the constructor default is `size = 256`). -/
def mk' (size : Nat) : Buffer := ⟨List.replicate size 0, 0, 0⟩

/-- `get end()`. -/
def end_ (b : Buffer) : Nat := b.length + b.offset

/-- `get front()`. -/
def front (b : Buffer) : Nat := b.offset

/-- `Buffer.from_uint8array` aliases an existing array without copying. -/
def from_uint8array (l : List Nat) : Buffer := ⟨l, l.length, 0⟩

/-- `to_uint8array()`: the live byte window `subarray(offset, end)`. -/
def to_uint8array (b : Buffer) : List Nat := (b.buffer.drop b.offset).take b.length

def ensure_capacity (b : Buffer) (size : Nat) : Buffer :=
  if b.end_ + size > b.buffer.length then
    { buffer := b.to_uint8array ++ List.replicate ((b.end_ + size) * 2 - b.length) 0
      length := b.length
      offset := 0 }
  else b

def reserve (b : Buffer) (amount : Nat) : Nat × Buffer :=
  let b' := b.ensure_capacity amount
  (b'.end_, { b' with length := b'.length + amount })

def consume (b : Buffer) (amount : Nat) : Except String (Nat × Buffer) :=
  if amount > b.length then .error "not enough bytes"
  else .ok (b.front, { b with length := b.length - amount, offset := b.offset + amount })

/-- `write(byte)`: reserve one slot and store (a `Uint8Array` store coerces
the value modulo 256). -/
def writeByte (b : Buffer) (byte : Nat) : Buffer :=
  let rb := b.reserve 1
  { rb.2 with buffer := rb.2.buffer.set rb.1 (byte % 256) }

/-- `read()`: consume one byte from the front. -/
def read1 (b : Buffer) : Except String (Nat × Buffer) := do
  let (off, b') ← b.consume 1
  pure (b'.buffer.getD off 0, b')

/-- `read(amount)`: consume `amount` bytes from the front. -/
def read (b : Buffer) (amount : Nat) : Except String (List Nat × Buffer) := do
  let (off, b') ← b.consume amount
  pure ((b'.buffer.drop off).take amount, b')

end Buffer

/-- `PROTO.UInt32.deserialize`: big-endian 32-bit read via
`data_view.getUint32(consume(4))`. -/
def uint32Deserialize (b : Buffer) : Except String (Nat × Buffer) := do
  let (off, b') ← b.consume 4
  pure ((b'.buffer.getD off 0) <<< 24 ||| (b'.buffer.getD (off + 1) 0) <<< 16 |||
      (b'.buffer.getD (off + 2) 0) <<< 8 ||| b'.buffer.getD (off + 3) 0, b')

end PROTO

/-! ## SERDE.ByteArray (`src/ipc.ts`, ByteArray variant)

The older buffer class: same layout, but `read(amount)` clamps the request to
the bytes available (`max_amount`) and returns an empty array when nothing is
left — it never throws. -/

namespace SERDE

structure ByteArray where
  buffer : List Nat
  length : Nat
  offset : Nat

/-- `SERDE.ByteArray.read(amount)`: clamp `amount` to the live length, return
the clamped slice (possibly `[]`), never an error. -/
def ByteArray.read (a : ByteArray) (amount : Nat) : List Nat × ByteArray :=
  if 0 < a.length then
    let max_amount := if amount > a.length then a.length else amount
    ((a.buffer.drop a.offset).take max_amount,
      { a with length := a.length - max_amount, offset := a.offset + max_amount })
  else ([], a)

/-- `SERDE.ByteArray.from_uint8array`. -/
def ByteArray.from_uint8array (l : List Nat) : ByteArray := ⟨l, l.length, 0⟩

end SERDE

/-- C5 counterexample: the claim says every read/consume of more bytes than
remain raises an error, citing `SERDE.ByteArray.read` — but `read 5` on a
buffer holding only the two live bytes `[7, 8]` returns those two bytes (and
an empty list on an empty buffer) without any error, i.e. it returns fewer
bytes instead of failing. -/
theorem bytearray_read_clamps_counterexample :
    ((SERDE.ByteArray.from_uint8array [7, 8]).read 5).1 = [7, 8]
  ∧ ((SERDE.ByteArray.from_uint8array []).read 1).1 = []
  ∧ (2 : Nat) < 5 := by decide

/-- C5 (amended): `PROTO.Buffer.consume` (hence `read`) throws
`'not enough bytes'` whenever the request exceeds the live length, constructing
an empty buffer raises nothing (`new Buffer(256)` has live length 0 and a
well-defined backing store), and a codec decode needing more bytes than remain
(here `PROTO.UInt32.deserialize` on fewer than 4 live bytes) propagates the
failure; the old `SERDE.ByteArray.read`, however, clamps instead of raising. -/
theorem buffer_underflow_raises (b : PROTO.Buffer) (n : Nat) (h : b.length < n) :
    b.consume n = .error "not enough bytes"
  ∧ (PROTO.Buffer.mk' 256).length = 0
  ∧ (b.length < 4 → ∃ e, PROTO.uint32Deserialize b = .error e) := by
  refine ⟨?_, rfl, ?_⟩
  · rw [PROTO.Buffer.consume, if_pos (by omega)]
  · intro h4
    refine ⟨"not enough bytes", ?_⟩
    rw [PROTO.uint32Deserialize]
    have : b.consume 4 = .error "not enough bytes" := by
      rw [PROTO.Buffer.consume, if_pos (by omega)]
    rw [this]
    rfl

/-- Witness for C5 on the empty buffer: reading one byte underflows. -/
theorem buffer_underflow_raises_witness :
    (PROTO.Buffer.mk' 256).length < 1
  ∧ ((PROTO.Buffer.mk' 256).consume 1 = .error "not enough bytes"
      ∧ (PROTO.Buffer.mk' 256).length = 0
      ∧ ((PROTO.Buffer.mk' 256).length < 4 →
          ∃ e, PROTO.uint32Deserialize (PROTO.Buffer.mk' 256) = .error e)) :=
  ⟨by decide, buffer_underflow_raises (PROTO.Buffer.mk' 256) 1 (by decide)⟩

/-! ## PROTO.UVarInt32 (`src/ipc.ts`, current variant)

Codecs are modelled on the live byte window of a `Buffer` as a `List Nat`:
`serialize` appends bytes at the end, `deserialize` consumes from the front
and returns the value plus the unread rest (`Buffer.read` throwing on
underflow becomes `Except.error`). -/

namespace PROTO

/-- The `while (value >= 0x80)` loop of `PROTO.UVarInt32.serialize`: emit
seven bits per byte, lowest group first, continuation flag in the high bit.
`(value & 0x7f) | 0x80` is `value % 128 + 128` and `value >>>= 7` is
division by 128. -/
def uvarLoop (value : Nat) : List Nat :=
  if 128 ≤ value then (value % 128 + 128) :: uvarLoop (value / 128) else [value]
termination_by value
decreasing_by simp_wf; omega

/-- `PROTO.UVarInt32.serialize`: `value >>>= 0` first (reduce to the 32-bit
domain), then the group loop. -/
def uvarSerialize (value : Nat) : List Nat := uvarLoop (value % 2 ^ 32)

/-- The `for (let size = 0; size < 5; size++)` loop of
`PROTO.UVarInt32.deserialize`: read at most five groups, each byte
contributing its low seven bits (`byte & 0x7f`, i.e. `byte % 128`) at bit
position `7 * size` (the `|=` of disjoint bit ranges is addition); a clear
high bit (`byte & 0x80`) ends the loop.  The JS accumulator lives in 32-bit
ints, so the returned `value >>> 0` is the sum reduced modulo `2 ^ 32`. -/
def uvarDeGo : List Nat → Nat → Nat → Except String (Nat × List Nat)
  | s, size, value =>
    if size < 5 then
      match s with
      | [] => .error "not enough bytes"
      | b :: rest =>
        let value' := value + b % 128 * 2 ^ (7 * size)
        if b &&& 128 = 0 then .ok (value' % 2 ^ 32, rest)
        else uvarDeGo rest (size + 1) value'
    else .ok (value % 2 ^ 32, s)

/-- `PROTO.UVarInt32.deserialize`. -/
def uvarDeserialize (s : List Nat) : Except String (Nat × List Nat) := uvarDeGo s 0 0

end PROTO

set_option maxRecDepth 4096 in
/-- On bytes (`b < 256`) the continuation test `b & 0x80 == 0` is `b < 128`. -/
theorem and128_eq_zero_iff : ∀ b < 256, (b &&& 128 = 0 ↔ b < 128) := by decide

theorem uvarLoop_ne_nil (v : Nat) : PROTO.uvarLoop v ≠ [] := by
  rw [PROTO.uvarLoop]
  split <;> simp

theorem uvarLoop_length : ∀ v k, v < 2 ^ (7 * k) → 1 ≤ k → (PROTO.uvarLoop v).length ≤ k := by
  intro v
  induction v using Nat.strong_induction_on with
  | _ v ih =>
    intro k hv hk
    rw [PROTO.uvarLoop]
    by_cases h : 128 ≤ v
    · rw [if_pos h]
      have hk2 : 2 ≤ k := by
        by_contra hk2
        have : k = 1 := by omega
        subst this
        simp at hv
        omega
      have hdiv : v / 128 < 2 ^ (7 * (k - 1)) := by
        rw [Nat.div_lt_iff_lt_mul (by norm_num)]
        calc v < 2 ^ (7 * k) := hv
        _ = 2 ^ (7 * (k - 1)) * 128 := by
          rw [show (128 : Nat) = 2 ^ 7 by norm_num, ← pow_add]
          congr 1
          omega
      have := ih (v / 128) (by omega) (k - 1) hdiv (by omega)
      simp only [List.length_cons]
      omega
    · rw [if_neg h]
      simpa using hk

theorem uvarDeGo_uvarLoop : ∀ v size value tail, v < 2 ^ (7 * (5 - size)) → size < 5 →
    PROTO.uvarDeGo (PROTO.uvarLoop v ++ tail) size value
      = .ok ((value + v * 2 ^ (7 * size)) % 2 ^ 32, tail) := by
  intro v
  induction v using Nat.strong_induction_on with
  | _ v ih =>
    intro size value tail hv hsize
    rw [PROTO.uvarLoop]
    by_cases h : 128 ≤ v
    · rw [if_pos h]
      have hsize4 : size < 4 := by
        by_contra hs4
        have : size = 4 := by omega
        subst this
        simp at hv
        omega
      have hb : v % 128 + 128 < 256 := by omega
      have hcont : ¬(v % 128 + 128 &&& 128 = 0) := by
        rw [and128_eq_zero_iff _ hb]
        omega
      rw [List.cons_append, PROTO.uvarDeGo]
      rw [if_pos hsize]
      simp only [hcont, if_false]
      have hdiv : v / 128 < 2 ^ (7 * (5 - (size + 1))) := by
        rw [Nat.div_lt_iff_lt_mul (by norm_num)]
        calc v < 2 ^ (7 * (5 - size)) := hv
        _ = 2 ^ (7 * (5 - (size + 1))) * 128 := by
          rw [show (128 : Nat) = 2 ^ 7 by norm_num, ← pow_add]
          congr 1
          omega
      rw [ih (v / 128) (by omega) (size + 1) _ tail hdiv (by omega)]
      have key : value + (v % 128 + 128) % 128 * 2 ^ (7 * size) + v / 128 * 2 ^ (7 * (size + 1))
          = value + v * 2 ^ (7 * size) := by
        have hmod : (v % 128 + 128) % 128 = v % 128 := by omega
        have hpow : (2 : Nat) ^ (7 * (size + 1)) = 2 ^ (7 * size) * 128 := by
          rw [show 7 * (size + 1) = 7 * size + 7 by ring, pow_add]
          norm_num
        have hsplit : v % 128 + 128 * (v / 128) = v := by omega
        rw [hmod, hpow]
        conv_rhs => rw [← hsplit]
        ring
      rw [key]
    · rw [if_neg h]
      rw [List.cons_append, PROTO.uvarDeGo]
      rw [if_pos hsize]
      have hz : v &&& 128 = 0 := by
        rw [and128_eq_zero_iff _ (by omega)]
        omega
      simp only [hz, if_true, List.nil_append]
      have hv128 : v % 128 = v := Nat.mod_eq_of_lt (by omega)
      rw [hv128]

theorem uvarLoop_digits : ∀ v i, i < (PROTO.uvarLoop v).length →
    (PROTO.uvarLoop v).getD i 0 % 128 = v / 128 ^ i % 128
    ∧ (128 ≤ (PROTO.uvarLoop v).getD i 0 ↔ i + 1 < (PROTO.uvarLoop v).length) := by
  intro v
  induction v using Nat.strong_induction_on with
  | _ v ih =>
    intro i hi
    rw [PROTO.uvarLoop] at hi ⊢
    by_cases h : 128 ≤ v
    · rw [if_pos h] at hi ⊢
      match i with
      | 0 =>
        have hlen : 0 < (PROTO.uvarLoop (v / 128)).length :=
          List.length_pos.mpr (uvarLoop_ne_nil _)
        simp only [List.getD_cons_zero, List.length_cons, pow_zero, Nat.div_one]
        constructor
        · omega
        · constructor
          · intro _
            omega
          · intro _
            omega
      | i + 1 =>
        simp only [List.getD_cons_succ, List.length_cons] at hi ⊢
        have hrec := ih (v / 128) (by omega) i (by omega)
        constructor
        · rw [hrec.1]
          congr 1
          rw [Nat.div_div_eq_div_mul, ← pow_succ']
        · rw [hrec.2]
          omega
    · rw [if_neg h] at hi ⊢
      simp only [List.length_cons, List.length_nil] at hi
      match i with
      | 0 =>
        simp only [List.getD_cons_zero, pow_zero, Nat.div_one, List.length_cons,
          List.length_nil]
        exact ⟨by trivial, by omega⟩
      | i + 1 => omega

theorem uvarDeGo_consumed (s : List Nat) : ∀ size value v rest,
    PROTO.uvarDeGo s size value = .ok (v, rest) →
    List.IsSuffix rest s ∧ s.length ≤ rest.length + (5 - size) := by
  induction s with
  | nil =>
    intro size value v rest h
    rw [PROTO.uvarDeGo] at h
    by_cases hs : size < 5
    · rw [if_pos hs] at h
      simp at h
    · rw [if_neg hs] at h
      simp only [Except.ok.injEq, Prod.mk.injEq] at h
      obtain ⟨-, h2⟩ := h
      subst h2
      exact ⟨List.suffix_refl _, by omega⟩
  | cons b s' ih =>
    intro size value v rest h
    rw [PROTO.uvarDeGo] at h
    by_cases hs : size < 5
    · rw [if_pos hs] at h
      by_cases hz : b &&& 128 = 0
      · rw [if_pos hz] at h
        simp only [Except.ok.injEq, Prod.mk.injEq] at h
        obtain ⟨-, h2⟩ := h
        subst h2
        refine ⟨List.suffix_cons b s', ?_⟩
        simp only [List.length_cons]
        omega
      · rw [if_neg hz] at h
        obtain ⟨hsuf, hlen⟩ := ih (size + 1) _ v rest h
        refine ⟨hsuf.trans (List.suffix_cons b s'), ?_⟩
        simp only [List.length_cons]
        omega
    · rw [if_neg hs] at h
      simp only [Except.ok.injEq, Prod.mk.injEq] at h
      obtain ⟨-, h2⟩ := h
      subst h2
      exact ⟨List.suffix_refl _, by omega⟩

/-! The older `Proto` class (ByteArray variant) has its own `UVarInt32`. -/

namespace Proto

/-- `Proto.UVarInt32.deserialize` (ByteArray variant): a `do … while` that
keeps reading while the continuation bit is set **and fewer than ten groups
were read** (`size < 10`).  `SERDE.ByteArray.read` on an empty stream yields
`[]`, so `read()[0]` is `undefined`, which the bit tests coerce to 0 and the
loop stops.  Group contributions accumulate as in the current variant (the
variant returns the raw 32-bit signed reading; only the group count and
consumption matter to the claims below). -/
def uvarDeGo : List Nat → Nat → Nat → Nat × List Nat
  | [], _, value => (value, [])
  | b :: rest, size, value =>
    let value' := value + b % 128 * 2 ^ (7 * size)
    if b &&& 128 ≠ 0 ∧ size + 1 < 10 then uvarDeGo rest (size + 1) value'
    else (value', rest)

/-- `Proto.UVarInt32.deserialize`. -/
def uvarDeserialize (s : List Nat) : Nat × List Nat := uvarDeGo s 0 0

end Proto

/-- C7 counterexample: the claim says both serialize and deserialize use at
most 5 byte-groups, citing both `PROTO.UVarInt32` and `Proto.UVarInt32` — but
the ByteArray-variant deserializer loops while `size < 10`: on this 7-byte
stream (six continuation bytes, then a terminator) it consumes all 7 bytes,
more than 5 groups. -/
theorem proto_uvarint_ten_groups_counterexample :
    (Proto.uvarDeserialize [128, 128, 128, 128, 128, 128, 1]).2 = []
  ∧ ([128, 128, 128, 128, 128, 128, 1] : List Nat).length = 7 := by decide

/-- C7 (amended): the current `PROTO.UVarInt32` behaves exactly as claimed —
serialization of a 32-bit value is its 7-bit groups in little-endian order
(byte `i` carries `n / 128 ^ i % 128` with the high bit set exactly on
non-final groups), at most 5 groups are produced, deserialization reads back
the value consuming exactly those bytes and never consumes more than 5
bytes, and `300` encodes as `[0xAC, 0x02]`; the old `Proto.UVarInt32`
deserializer, however, reads up to 10 groups (see the counterexample). -/
theorem uvarint32_spec (n : Nat) (tail : List Nat) (hn : n < 2 ^ 32) :
    (PROTO.uvarSerialize n).length ≤ 5
  ∧ (∀ i, i < (PROTO.uvarSerialize n).length →
      (PROTO.uvarSerialize n).getD i 0 % 128 = n / 128 ^ i % 128
      ∧ (128 ≤ (PROTO.uvarSerialize n).getD i 0 ↔ i + 1 < (PROTO.uvarSerialize n).length))
  ∧ PROTO.uvarDeserialize (PROTO.uvarSerialize n ++ tail) = .ok (n, tail)
  ∧ PROTO.uvarSerialize 300 = [172, 2]
  ∧ PROTO.uvarDeserialize [172, 2] = .ok (300, [])
  ∧ (∀ s v rest, PROTO.uvarDeserialize s = .ok (v, rest) →
      List.IsSuffix rest s ∧ s.length ≤ rest.length + 5) := by
  have hser : PROTO.uvarSerialize n = PROTO.uvarLoop n := by
    rw [PROTO.uvarSerialize, Nat.mod_eq_of_lt hn]
  have h35 : n < 2 ^ (7 * 5) := lt_of_lt_of_le hn (by norm_num)
  refine ⟨?_, ?_, ?_, ?_, ?_, ?_⟩
  · rw [hser]
    exact uvarLoop_length n 5 h35 (by omega)
  · rw [hser]
    exact uvarLoop_digits n
  · rw [hser, PROTO.uvarDeserialize, uvarDeGo_uvarLoop n 0 0 tail (by simpa using h35) (by omega)]
    simp
    omega
  · rw [PROTO.uvarSerialize]
    norm_num
    rw [PROTO.uvarLoop]
    norm_num
    rw [PROTO.uvarLoop]
    norm_num
  · rfl
  · intro s v rest h
    have := uvarDeGo_consumed s 0 0 v rest h
    exact ⟨this.1, by omega⟩

/-- Witness for C7 at `n = 300`. -/
theorem uvarint32_spec_witness :
    300 < 2 ^ 32
  ∧ (PROTO.uvarSerialize 300).length ≤ 5
  ∧ PROTO.uvarDeserialize (PROTO.uvarSerialize 300 ++ []) = .ok (300, [])
  ∧ (List.IsSuffix [] [172, 2] ∧ ([172, 2] : List Nat).length ≤ ([] : List Nat).length + 5) :=
  ⟨by decide, (uvarint32_spec 300 [] (by decide)).1,
   (uvarint32_spec 300 [] (by decide)).2.2.1,
   (uvarint32_spec 300 [] (by decide)).2.2.2.2.2 [172, 2] 300 [] (by rfl)⟩

/-! ## Proto codecs of the ByteArray variant needed for the Optional slip

These operate on the live byte window; reading past a freshly-written
stream's live window returns the zero-initialised backing byte (`headD 0`)
while `read` past the end returns nothing (the clamping `ByteArray.read`). -/

namespace Proto

/-- `Proto.Boolean.serialize`: `stream.write(value ? 1 : 0)`. -/
def booleanSerialize (b : Bool) : List Nat := [if b then 1 else 0]

/-- `Proto.Boolean.deserialize`: `stream.read()[0]! === 1` (an empty read
gives `undefined`, which is not `1`). -/
def booleanDeserialize (s : List Nat) : Bool × List Nat := (s.headD 0 == 1, s.drop 1)

/-- `Proto.UInt8.serialize`: append one byte (`setUint8` coerces mod 256). -/
def uint8Serialize (v : Nat) : List Nat := [v % 256]

/-- `Proto.UInt8.deserialize`: `getUint8(front)` then `read(1)`; past the
live window of a fresh stream this reads the zero backing byte. -/
def uint8Deserialize (s : List Nat) : Nat × List Nat := (s.headD 0, s.drop 1)

/-- `Proto.Optional(value).serialize(optional, stream)`.  NOTE the slip in
the source: the presence flag written is `Proto.Boolean.serialize(value !==
undefined)` where `value` is the MEMBER CODEC (the combinator's argument),
not the optional being serialized (named `optional`) — so the flag is always
`true`; the payload is only written `if (optional !== undefined)`. -/
def optionalSerialize {α : Type} (ser : α → List Nat) : Option α → List Nat
  | none => booleanSerialize true
  | some a => booleanSerialize true ++ ser a

/-- `Proto.Optional(value).deserialize`: read the presence flag; when it is
set, deserialize the member; otherwise return `undefined`. -/
def optionalDeserialize {β : Type} (de : List Nat → β × List Nat) (s : List Nat) :
    Option β × List Nat :=
  let t := booleanDeserialize s
  if t.1 then
    let u := de t.2
    (some u.1, u.2)
  else (none, t.2)

end Proto

/-- C1: failing input for the round-trip law — `Proto.Optional(Proto.UInt8)`
applied to `undefined`.  Because of the slip (`value !== undefined` tests the
member codec, which is never `undefined`), serializing `undefined` writes the
presence byte `1` and no payload; deserializing reads the flag as `true` and
then decodes a `UInt8` from the exhausted stream, producing the zero backing
byte.  The round trip returns `some 0`, not `undefined`: the code violates
the spec's round-trip law, which the sibling `PROTO.Optional` (the current
variant) implements correctly (`const def = value !== undefined` there tests
the optional). -/
theorem proto_optional_roundtrip_fails :
    Proto.optionalSerialize Proto.uint8Serialize none = [1]
  ∧ (Proto.optionalDeserialize Proto.uint8Deserialize
      (Proto.optionalSerialize Proto.uint8Serialize none)).1 = some 0
  ∧ some 0 ≠ (none : Option Nat) := by decide

/-! ## Endpoint dispatch (the `scriptEventReceive` subscribers)

A listener's run is abstracted by its outcome: `Except.ok ()` if it returned,
`.error e` if it threw `e`. -/

namespace NET

/-- The current subscriber's fan-out: each listener runs inside
`try { … } catch (e) { errors.push(e) }` and the loop continues; returns
(number of listeners that ran, thrown errors in listener order). -/
def runListenersAgg {E : Type} : List (Except E Unit) → Nat × List E
  | [] => (0, [])
  | r :: rest =>
    let t := runListenersAgg rest
    (t.1 + 1, (match r with | .error e => [e] | .ok _ => []) ++ t.2)

/-- After the loop: `if (errors.length > 0) throw new AggregateError(errors,
'one or more listeners failed')`. -/
def dispatchAgg {E : Type} (ls : List (Except E Unit)) : Except (List E) Unit :=
  let t := runListenersAgg ls
  if t.2.isEmpty then .ok () else .error t.2

/-- The ByteArray-variant subscriber has no `try`/`catch`: listeners run in
order until the first throw, which propagates out of the job and aborts the
loop; returns (number of listeners that ran, the propagated error if any). -/
def runListenersSeq {E : Type} : List (Except E Unit) → Nat × Option E
  | [] => (0, none)
  | .ok _ :: rest =>
    let t := runListenersSeq rest
    (t.1 + 1, t.2)
  | .error e :: _ => (1, some e)

/-- The error a listener outcome contributes. -/
def errOf {E : Type} : Except E Unit → Option E
  | .error e => some e
  | .ok _ => none

end NET

/-- C6 counterexample: the claim covers both subscribers, but in the
ByteArray-variant subscriber (no `try`/`catch`) a throwing first listener
stops the loop: of two registered listeners only one runs, and the sibling
never receives the event. -/
theorem seq_dispatch_stops_counterexample :
    (NET.runListenersSeq [Except.error 0, Except.ok ()]).1 = 1
  ∧ ([Except.error 0, Except.ok ()] : List (Except Nat Unit)).length = 2 := by decide

/-- C6 (amended): in the current subscriber every listener runs
(`runListenersAgg` counts all of them), the thrown errors are collected in
listener order, and afterwards a single aggregate error is raised exactly
when some listener threw, carrying exactly the thrown errors — nothing is
swallowed; the ByteArray-variant subscriber instead lets the first throw
abort the loop (see the counterexample). -/
theorem aggregate_dispatch_runs_all {E : Type} (ls : List (Except E Unit)) :
    (NET.runListenersAgg ls).1 = ls.length
  ∧ (NET.runListenersAgg ls).2 = ls.filterMap NET.errOf
  ∧ (NET.dispatchAgg ls = .ok () ↔ ∀ r ∈ ls, r = .ok ())
  ∧ (∀ es, NET.dispatchAgg ls = .error es → es = ls.filterMap NET.errOf ∧ es ≠ []) := by
  have h12 : (NET.runListenersAgg ls).1 = ls.length
      ∧ (NET.runListenersAgg ls).2 = ls.filterMap NET.errOf := by
    induction ls with
    | nil => exact ⟨rfl, rfl⟩
    | cons r rest ih =>
      simp only [NET.runListenersAgg]
      refine ⟨by simp [ih.1], ?_⟩
      rw [List.filterMap_cons]
      match r with
      | .ok _ => simpa [NET.errOf] using ih.2
      | .error e => simpa [NET.errOf] using ih.2
  refine ⟨h12.1, h12.2, ?_, ?_⟩
  · rw [NET.dispatchAgg]
    by_cases hemp : (NET.runListenersAgg ls).2.isEmpty
    · rw [if_pos hemp]
      simp only [true_iff, iff_true]
      intro r hr
      rw [h12.2, List.isEmpty_iff, List.filterMap_eq_nil_iff] at hemp
      have := hemp r hr
      match r with
      | .ok _ => rfl
      | .error e => simp [NET.errOf] at this
    · rw [if_neg hemp]
      constructor
      · intro h
        exact absurd h (by simp)
      · intro hall
        exfalso
        apply hemp
        rw [h12.2, List.isEmpty_iff, List.filterMap_eq_nil_iff]
        intro r hr
        rw [hall r hr]
        rfl
  · intro es hes
    rw [NET.dispatchAgg] at hes
    by_cases hemp : (NET.runListenersAgg ls).2.isEmpty
    · rw [if_pos hemp] at hes
      exact absurd hes (by simp)
    · rw [if_neg hemp] at hes
      simp only [Except.error.injEq] at hes
      subst hes
      exact ⟨h12.2.symm ▸ rfl, by simpa [List.isEmpty_iff] using hemp⟩

/-! ## IPC.ConnectionManager handshake (`handshake:synchronize` listener) -/

namespace IPC

/-- The `synchronize` message payload (`HandshakeSynchronizeSerializer`);
peer ids are opaque strings, modelled as naturals. -/
structure SyncData where
  from_ : Nat
  encryption_enabled : Bool
  encryption_public_key : List Nat
  encryption_prime : Nat
  encryption_modulus : Nat

/-- The `acknowledge` message payload (`HandshakeAcknowledgeSerializer`). -/
structure AckData where
  from_ : Nat
  encryption_enabled : Bool
  encryption_public_key : List Nat

/-- The body of the `ipc:{id}:handshake:synchronize` listener installed by the
`ConnectionManager` constructor, with the responder's random secret
(`CRYPTO.make_secret(data.encryption_modulus)`) as a parameter: compute the
responder's public key with the initiator's (modulus, prime); store in
`_enc_map` under `data.from` the shared secret when `data.encryption_enabled
|| _enc_force`, and `false` (here `none`) otherwise; emit back the
acknowledge `{from: _id, encryption_public_key, encryption_enabled:
_enc_force}`. -/
def handshakeSynchronize (id : Nat) (enc_force : Bool) (secret : Nat) (data : SyncData) :
    Option (List Nat) × AckData :=
  let public_key := CRYPTO.make_public secret data.encryption_modulus data.encryption_prime
  let enc : Option (List Nat) :=
    if data.encryption_enabled || enc_force then
      some (CRYPTO.make_shared secret data.encryption_public_key data.encryption_prime)
    else none
  (enc, { from_ := id, encryption_enabled := enc_force, encryption_public_key := public_key })

end IPC

/-- C9 counterexample: initiator requests encryption
(`encryption_enabled = true`) while the manager does not force it
(`_enc_force = false`): a shared secret IS recorded — encryption ended up
enabled for this peer — yet the acknowledge carries `encryption_enabled =
false` (the manager's force flag), not the claimed disjunction `true`. -/
theorem ack_encryption_flag_counterexample :
    ((IPC.handshakeSynchronize 1 false 3 ⟨2, true, CRYPTO.to_HEX 4, 23, 5⟩).1).isSome = true
  ∧ (IPC.handshakeSynchronize 1 false 3 ⟨2, true, CRYPTO.to_HEX 4, 23, 5⟩).2.encryption_enabled
      = false
  ∧ (true || false) ≠ false := ⟨rfl, rfl, by decide⟩

/-- C9 (amended): on a synchronize message the manager records a shared
secret for the initiating peer exactly when the initiator's
encryption-requested flag OR the manager's forced-encryption flag is true
(absent otherwise), and the acknowledge it emits carries its id and public
value — but its `encryption_enabled` field is only the manager's
forced-encryption flag, not that disjunction (the initiator reconstructs the
disjunction by or-ing its own request on receipt). -/
theorem handshake_sync_spec (id : Nat) (force : Bool) (secret : Nat) (data : IPC.SyncData) :
    ((IPC.handshakeSynchronize id force secret data).1.isSome
        = (data.encryption_enabled || force))
  ∧ (IPC.handshakeSynchronize id force secret data).2.encryption_enabled = force
  ∧ (IPC.handshakeSynchronize id force secret data).2.from_ = id
  ∧ (IPC.handshakeSynchronize id force secret data).2.encryption_public_key
      = CRYPTO.make_public secret data.encryption_modulus data.encryption_prime := by
  refine ⟨?_, rfl, rfl, rfl⟩
  rw [IPC.handshakeSynchronize]
  by_cases h : data.encryption_enabled || force <;> simp [h]

/-! ## IPC.invoke (no correlation of responses to requests)

`IPC.invoke` registers on `ipc:{channel}:handle` the listener
`function* (value) { resolve(value); terminate() }` — no guid and no
responder-identity filter — and emits the `:invoke` message.  The
subscriber's fan-out loop `for (let i = 0; i < listeners.length; i++)`
iterates the live listener array while `terminate()` splices the resolved
listener out of it. -/

namespace IPC

/-- One delivery of a complete message to the pending invoke listeners `ls`
(ids in registration order), following the subscriber loop with live-array
splicing: the listener at position `i` resolves with the delivered value and
removes itself (`eraseIdx`), then the loop continues at `i + 1` against the
spliced array.  Returns (ids resolved by this delivery, remaining array). -/
def invokeDispatch (ls : List Nat) (i : Nat) : List Nat × List Nat :=
  if h : i < ls.length then
    let t := invokeDispatch (ls.eraseIdx i) (i + 1)
    (ls.get ⟨i, h⟩ :: t.1, t.2)
  else ([], ls)
termination_by ls.length - i
decreasing_by simp_wf; rw [List.length_eraseIdx_of_lt h]; omega

/-- Pending invokes on one channel's `:handle` endpoint plus resolved
promises. -/
structure PendingInvokes (R : Type) where
  listeners : List Nat
  resolved : List (Nat × R)

def emptyInvokes (R : Type) : PendingInvokes R := ⟨[], []⟩

/-- `IPC.invoke`: register a one-shot listener at the END of the endpoint's
listener list. -/
def registerInvoke {R : Type} (st : PendingInvokes R) (id : Nat) : PendingInvokes R :=
  { st with listeners := st.listeners ++ [id] }

/-- Deliver one complete message on the `:handle` endpoint: every listener
the loop reaches resolves with this same value, whatever request it belongs
to. -/
def deliverHandle {R : Type} (st : PendingInvokes R) (v : R) : PendingInvokes R :=
  let t := invokeDispatch st.listeners 0
  { listeners := t.2, resolved := st.resolved ++ t.1.map (fun l => (l, v)) }

end IPC

/-- C10: with two invokes pending on the same channel (ids 1 then 2, in
registration order), the first complete message delivered on
`ipc:{channel}:handle` resolves invoke 1 with its value — in the execution
where `r2`, the response a handler produced for invoke 2's request, arrives
first, invoke 1's promise resolves with it (and invoke 2 stays pending,
still uncorrelated).  Nothing in `IPC.invoke`'s listener inspects a guid or
the responder. -/
theorem invoke_no_correlation {R : Type} (r2 : R) :
    (IPC.deliverHandle (IPC.registerInvoke (IPC.registerInvoke (IPC.emptyInvokes R) 1) 2)
        r2).resolved = [(1, r2)]
  ∧ (IPC.deliverHandle (IPC.registerInvoke (IPC.registerInvoke (IPC.emptyInvokes R) 1) 2)
        r2).listeners = [2] := by
  have h2 : IPC.invokeDispatch [2] 1 = ([], [2]) := by
    rw [IPC.invokeDispatch]
    simp
  have h1 : IPC.invokeDispatch [1, 2] 0 = ([1], [2]) := by
    rw [IPC.invokeDispatch]
    simp [h2]
  constructor <;>
    simp [IPC.deliverHandle, IPC.registerInvoke, IPC.emptyInvokes, h1]

/-! ## NET channel-string coder (`NET.serialize` / `NET.deserialize`)

Raw bytes are packed two per UTF-16 code unit; codes above `0xff` are
emitted literally, codes `<= 0xff` as a 2-hex-digit escape; the accumulator
string is flushed as a chunk whenever adding the next character would exceed
`max_size`, and the final accumulator is always flushed. -/

namespace NET

/-- `const char_code = uint8array[i] | (uint8array[++i] << 8)`: pack two
bytes per code; a trailing lone byte pairs with `undefined`, which `<< 8`
coerces to 0, leaving the byte itself. -/
def toCodes : List Nat → List Nat
  | [] => []
  | [b] => [b]
  | b0 :: b1 :: rest => (b0 ||| (b1 <<< 8)) :: toCodes rest

/-- `char_code <= 0x7f ? 1 : char_code <= 0x7ff ? 2 : char_code <= 0xffff ? 3 : 4`. -/
def utf16Size (c : Nat) : Nat :=
  if c ≤ 0x7f then 1 else if c ≤ 0x7ff then 2 else if c ≤ 0xffff then 3 else 4

/-- The code units one packed code appends to the accumulator: the literal
character when `char_code > 0xff`, otherwise the two uppercase hex digits of
`char_code.toString(16).padStart(2, '0')`. -/
def encPair (c : Nat) : List Nat :=
  if c > 0xff then [c]
  else [CRYPTO.hexDigitChar (c / 16), CRYPTO.hexDigitChar (c % 16)]

/-- `const char_size = char_code > 0xff ? utf16_size : 2`. -/
def charSize (c : Nat) : Nat := if c > 0xff then utf16Size c else 2

/-- The accumulation loop of `NET.serialize`: flush the accumulator as a
chunk when adding the next character would exceed `max_size`, then append
the character; push the final accumulator at the end.  The accumulator
string is represented by the list of appended character units — its code
units are their concatenation. -/
def serializeGo (max_size : Nat) : List Nat → List (List Nat) → Nat → List (List Nat)
  | [], accUnits, _ => [accUnits.flatten]
  | c :: rest, accUnits, accSize =>
    if accSize + charSize c > max_size then
      accUnits.flatten :: serializeGo max_size rest [encPair c] (charSize c)
    else
      serializeGo max_size rest (accUnits ++ [encPair c]) (accSize + charSize c)

/-- `NET.serialize(buffer, max_size)` on the buffer's live bytes. -/
def serialize (bytes : List Nat) (max_size : Nat) : List (List Nat) :=
  serializeGo max_size (toCodes bytes) [] 0

/-- The per-chunk decode loop of `NET.deserialize`: a code unit `<= 0xff`
starts a 2-hex-digit escape — `parseInt(str[j] + str[++j], 16)` — whose low
byte (`hex_code & 0xff`, i.e. `% 256`) and high byte (`hex_code >> 8`, i.e.
`/ 256`, zero here) are written; a literal unit writes its own low and high
bytes.  A lone trailing low unit would pair with `undefined` and `parseInt`
would give `NaN`, which the two writes coerce to zero bytes — unreachable on
encoder output. -/
def decodeStr : List Nat → List Nat
  | [] => []
  | [c] =>
    if c ≤ 0xff then [0, 0]
    else [c % 256, c / 256]
  | c :: d :: rest2 =>
    if c ≤ 0xff then
      let h := 16 * CRYPTO.hexDigitVal c + CRYPTO.hexDigitVal d
      h % 256 :: h / 256 :: decodeStr rest2
    else c % 256 :: c / 256 :: decodeStr (d :: rest2)

/-- `NET.deserialize(strings)`: decode every chunk in order into one buffer. -/
def deserialize (strings : List (List Nat)) : List Nat := (strings.map decodeStr).flatten

end NET

/-- The two bytes a packed code decodes to. -/
def pairBytes (c : Nat) : List Nat := [c % 256, c / 256]

theorem decodeStr_encPair {c : Nat} (hc : c < 65536) (s : List Nat) :
    NET.decodeStr (NET.encPair c ++ s) = c % 256 :: c / 256 :: NET.decodeStr s := by
  rw [NET.encPair]
  by_cases h : c > 0xff
  · rw [if_pos h, List.cons_append, List.nil_append]
    match s with
    | [] =>
      rw [NET.decodeStr, NET.decodeStr, if_neg (by omega)]
    | d :: s2 =>
      rw [NET.decodeStr, if_neg (by omega)]
  · rw [if_neg h, List.cons_append, List.cons_append, List.nil_append]
    rw [NET.decodeStr]
    have h1 : CRYPTO.hexDigitChar (c / 16) ≤ 0xff := by
      rw [CRYPTO.hexDigitChar]
      split <;> omega
    rw [if_pos h1]
    have hv1 : CRYPTO.hexDigitVal (CRYPTO.hexDigitChar (c / 16)) = c / 16 :=
      CRYPTO.hexDigitVal_hexDigitChar (by omega)
    have hv2 : CRYPTO.hexDigitVal (CRYPTO.hexDigitChar (c % 16)) = c % 16 :=
      CRYPTO.hexDigitVal_hexDigitChar (by omega)
    simp only [hv1, hv2]
    have hc' : 16 * (c / 16) + c % 16 = c := by omega
    rw [hc']

theorem decodeStr_units : ∀ cs : List Nat, (∀ c ∈ cs, c < 65536) →
    NET.decodeStr ((cs.map NET.encPair).flatten) = (cs.map pairBytes).flatten := by
  intro cs
  induction cs with
  | nil => intro _; rfl
  | cons c rest ih =>
    intro h
    simp only [List.map_cons, List.flatten_cons]
    rw [decodeStr_encPair (h c (by simp)) _, ih (fun x hx => h x (by simp [hx]))]
    rfl

theorem serializeGo_decode (M : Nat) : ∀ (codes pcs : List Nat) (accSize : Nat),
    (∀ c ∈ codes, c < 65536) → (∀ c ∈ pcs, c < 65536) →
    ((NET.serializeGo M codes (pcs.map NET.encPair) accSize).map NET.decodeStr).flatten
      = ((pcs ++ codes).map pairBytes).flatten := by
  intro codes
  induction codes with
  | nil =>
    intro pcs accSize _ hpcs
    rw [NET.serializeGo]
    simp only [List.map_cons, List.map_nil, List.flatten_cons, List.flatten_nil,
      List.append_nil]
    rw [decodeStr_units pcs hpcs]
  | cons c rest ih =>
    intro pcs accSize hcodes hpcs
    have hc : c < 65536 := hcodes c (by simp)
    have hrest : ∀ x ∈ rest, x < 65536 := fun x hx => hcodes x (by simp [hx])
    rw [NET.serializeGo]
    by_cases hflush : accSize + NET.charSize c > M
    · rw [if_pos hflush]
      simp only [List.map_cons, List.flatten_cons]
      have h1 : [NET.encPair c] = ([c] : List Nat).map NET.encPair := by simp
      rw [h1, ih [c] (NET.charSize c) hrest (by simpa using hc), decodeStr_units pcs hpcs]
      simp
    · rw [if_neg hflush]
      have h1 : pcs.map NET.encPair ++ [NET.encPair c] = (pcs ++ [c]).map NET.encPair := by
        simp
      rw [h1, ih (pcs ++ [c]) _ hrest ?side]
      · simp
      case side =>
        intro x hx
        rcases List.mem_append.mp hx with hx | hx
        · exact hpcs x hx
        · simp at hx
          omega

theorem toCodes_lt : ∀ (bytes : List Nat), (∀ b ∈ bytes, b < 256) →
    ∀ c ∈ NET.toCodes bytes, c < 65536 := by
  intro bytes
  induction bytes using NET.toCodes.induct with
  | case1 =>
    intro _ c hc
    simp [NET.toCodes] at hc
  | case2 b =>
    intro hb c hc
    simp [NET.toCodes] at hc
    subst hc
    have := hb c (by simp)
    omega
  | case3 b0 b1 rest ih =>
    intro hb c hc
    rw [NET.toCodes] at hc
    rcases List.mem_cons.mp hc with hc | hc
    · subst hc
      have h0 : b0 < 256 := hb b0 (by simp)
      have h1 : b1 < 256 := hb b1 (by simp)
      have h256 : (2 : Nat) ^ 8 = 256 := by norm_num
      rw [lor_shiftLeft_eq_add (k := 8) (by omega), Nat.shiftLeft_eq, h256]
      omega
    · exact ih (fun x hx => hb x (by simp [hx])) c hc

theorem toCodes_pairBytes : ∀ (bytes : List Nat), (∀ b ∈ bytes, b < 256) →
    bytes.length % 2 = 0 →
    ((NET.toCodes bytes).map pairBytes).flatten = bytes := by
  intro bytes
  induction bytes using NET.toCodes.induct with
  | case1 =>
    intro _ _
    rfl
  | case2 b =>
    intro _ h
    simp at h
  | case3 b0 b1 rest ih =>
    intro hb heven
    rw [NET.toCodes]
    simp only [List.map_cons, List.flatten_cons]
    have h0 : b0 < 256 := hb b0 (by simp)
    have h1 : b1 < 256 := hb b1 (by simp)
    have h256 : (2 : Nat) ^ 8 = 256 := by norm_num
    have hcode : b0 ||| (b1 <<< 8) = b0 + b1 * 256 := by
      rw [lor_shiftLeft_eq_add (k := 8) (by omega), Nat.shiftLeft_eq, h256]
    rw [hcode, pairBytes]
    have e1 : (b0 + b1 * 256) % 256 = b0 := by omega
    have e2 : (b0 + b1 * 256) / 256 = b1 := by omega
    rw [e1, e2, ih (fun x hx => hb x (by simp [hx]))
      (by simp only [List.length_cons] at heven; omega)]
    rfl

/-- C2 counterexample: for an odd number of bytes the round trip appends a
zero byte — each encoded character always decodes to TWO bytes, and the lone
final byte was packed with an implicit zero high byte.  Chunking `[5]` with
max size 10 and decoding yields `[5, 0]`, not `[5]`. -/
theorem net_chunk_roundtrip_odd_counterexample :
    NET.deserialize (NET.serialize [5] 10) = [5, 0]
  ∧ [5, 0] ≠ [5] := by decide

/-- C2 (amended): for every byte sequence of EVEN length `N` and every
maximum chunk size `M > 0`, chunking with `NET.serialize` and decoding the
chunk list in order with `NET.deserialize` reproduces exactly the original
bytes (for odd `N` the output carries one extra zero byte, see the
counterexample). -/
theorem net_chunk_roundtrip_even (bytes : List Nat) (M : Nat)
    (hb : ∀ b ∈ bytes, b < 256) (heven : bytes.length % 2 = 0) (hM : 0 < M) :
    NET.deserialize (NET.serialize bytes M) = bytes := by
  rw [NET.serialize, NET.deserialize]
  have h := serializeGo_decode M (NET.toCodes bytes) [] 0 (toCodes_lt bytes hb) (by simp)
  simp only [List.map_nil] at h
  rw [h]
  simpa using toCodes_pairBytes bytes hb heven

/-- Witness for C2 on four bytes with chunk budget 3 (forcing several
chunks). -/
theorem net_chunk_roundtrip_even_witness :
    (∀ b ∈ ([1, 255, 171, 2] : List Nat), b < 256)
  ∧ ([1, 255, 171, 2] : List Nat).length % 2 = 0
  ∧ 0 < 3
  ∧ NET.deserialize (NET.serialize [1, 255, 171, 2] 3) = [1, 255, 171, 2] :=
  ⟨by decide, by decide, by decide,
   net_chunk_roundtrip_even [1, 255, 171, 2] 3 (by decide) (by decide) (by decide)⟩

/-! ## Fragment reassembly (`NET.listen`)

The per-guid record kept in the listener's `buffer` map, its update on each
delivered fragment, and the triangular-number completion test.  Chunk strings
are an abstract payload type; `serialized_packets` is a JS sparse array,
modelled by its entries (`none` = hole) together with its JS `length`
(`plen`, one past the highest assigned index), which is what the decode
pipeline iterates over on completion. -/

namespace NET

structure FragState (α : Type) where
  size : Int
  serialized_packets : Nat → Option α
  plen : Nat
  data_size : Nat

/-- `{ size: -1, serialized_packets: [], data_size: 0 }`. -/
def FragState.fresh {α : Type} : FragState α := ⟨-1, fun _ => none, 0, 0⟩

/-- `fragment.size !== -1 && fragment.data_size === (fragment.size *
(fragment.size + 1)) / 2`. -/
def completes {α : Type} (st : FragState α) : Prop :=
  st.size ≠ -1 ∧ (st.data_size : Int) = st.size * (st.size + 1) / 2

instance {α : Type} (st : FragState α) : Decidable (completes st) :=
  inferInstanceAs (Decidable (_ ∧ _))

/-- The mutation the listener performs on the fetched record:
`if (payload.final) fragment.size = payload.index + 1`,
`fragment.serialized_packets[payload.index] = serialized_packet` (which also
raises the array's length), `fragment.data_size += payload.index + 1`. -/
def updateFrag {α : Type} (st0 : FragState α) (index : Nat) (final : Bool) (packet : α) :
    FragState α :=
  { size := if final then ((index + 1 : Nat) : Int) else st0.size
    serialized_packets := fun j =>
      if j = index then some packet else st0.serialized_packets j
    plen := max st0.plen (index + 1)
    data_size := st0.data_size + (index + 1) }

/-- One run of the `NET.listen` listener for one guid's fragment: fetch or
create the record, apply the mutation; when the completion test passes, hand
the chunk array (index order) to the decode pipeline and delete the record
from the buffer map. -/
def listenStep {α : Type} (st? : Option (FragState α)) (index : Nat) (final : Bool)
    (packet : α) : Option (FragState α) × Option (List (Option α)) :=
  let fragment := updateFrag (st?.getD FragState.fresh) index final packet
  if completes fragment then
    (none, some ((List.range fragment.plen).map fragment.serialized_packets))
  else (some fragment, none)

/-- Deliver fragments `(index, final, chunk)` for one guid in sequence,
collecting the chunk arrays handed to the decode pipeline and callback. -/
def listenRunFrom {α : Type} :
    Option (FragState α) → List (Nat × Bool × α) →
      Option (FragState α) × List (List (Option α))
  | st, [] => (st, [])
  | st, d :: ds =>
    let t := listenStep st d.1 d.2.1 d.2.2
    let r := listenRunFrom t.1 ds
    (r.1, t.2.toList ++ r.2)

/-- A fresh guid has no record in the buffer map yet. -/
def listenRun {α : Type} (ds : List (Nat × Bool × α)) :
    Option (FragState α) × List (List (Option α)) :=
  listenRunFrom none ds

/-- The fragment `NET.emit` broadcasts at `index` for an `n`-chunk message
with chunk contents `p`: `final` exactly on the last index. -/
def fragOf {α : Type} (p : Nat → α) (n : Nat) (i : Nat) : Nat × Bool × α :=
  (i, decide (i = n - 1), p i)

end NET

/-- C3 counterexample: delivering the final fragment of index 2 TWICE makes
the completion test pass (`size = 3`, `running_sum = 3 + 3 = 6 = 3·4/2`)
although fragments 0 and 1 were never seen — `running_sum` adds `index + 1`
once per DELIVERY, not once per distinct fragment as the claim states, so
the "if and only if" fails, as does "one to which index 1 is never delivered
never reports complete". -/
theorem reassembly_complete_duplicate_counterexample :
    (NET.listenRun [(2, true, ()), (2, true, ())]).2 ≠ []
  ∧ ∀ d ∈ [(2, true, ()), (2, true, ())], d.1 ≠ 0 ∧ d.1 ≠ 1 := by decide

/-- The reassembly record after exactly the fragment subset `s` of an
`n`-chunk message with chunk contents `p` has been delivered (each index at
most once). -/
def midState {α : Type} (p : Nat → α) (n : Nat) (s : Finset Nat) : NET.FragState α :=
  { size := if n - 1 ∈ s then (n : Int) else -1
    serialized_packets := fun j => if j ∈ s then some (p j) else none
    plen := s.sup (· + 1)
    data_size := ∑ i ∈ s, (i + 1) }

theorem midState_empty {α : Type} (p : Nat → α) (n : Nat) :
    midState p n ∅ = NET.FragState.fresh := by
  rw [midState, NET.FragState.fresh]
  congr 1

theorem sup_range_add_one (n : Nat) : (Finset.range n).sup (· + 1) = n := by
  induction n with
  | zero => simp
  | succ m ih =>
    rw [Finset.range_succ, Finset.sup_insert, ih]
    exact sup_eq_left.mpr (by omega)

/-- Gauss: the triangular running sum over all of `0 .. n-1`. -/
theorem sum_range_add_one_mul_two (n : Nat) :
    (∑ i ∈ Finset.range n, (i + 1)) * 2 = n * (n + 1) := by
  induction n with
  | zero => rfl
  | succ m ih =>
    rw [Finset.sum_range_succ, Nat.add_mul, ih]
    ring

/-- A proper subset of the fragments sums strictly below the triangular
number, so the completion test cannot pass early. -/
theorem sum_lt_of_ssubset {s : Finset Nat} {n : Nat} (hsub : s ⊆ Finset.range n)
    (hne : s ≠ Finset.range n) :
    ∑ i ∈ s, (i + 1) < ∑ i ∈ Finset.range n, (i + 1) := by
  have hss : s ⊂ Finset.range n := hsub.ssubset_of_ne hne
  obtain ⟨x, hxt, hxs⟩ := Finset.exists_of_ssubset hss
  exact Finset.sum_lt_sum_of_subset hsub hxt hxs (by omega) (fun j _ _ => by omega)

theorem sum_subset_eq_iff {s : Finset Nat} {n : Nat} (hsub : s ⊆ Finset.range n) :
    (∑ i ∈ s, (i + 1)) = ∑ i ∈ Finset.range n, (i + 1) ↔ s = Finset.range n := by
  constructor
  · intro h
    by_contra hne
    exact absurd h (Nat.ne_of_lt (sum_lt_of_ssubset hsub hne))
  · intro h
    rw [h]

theorem completes_midState_iff {α : Type} (p : Nat → α) (n : Nat) (hn : 0 < n)
    {s' : Finset Nat} (hsub : s' ⊆ Finset.range n) :
    NET.completes (midState p n s') ↔ s' = Finset.range n := by
  have hT2 : (∑ i ∈ Finset.range n, (i + 1)) * 2 = n * (n + 1) := sum_range_add_one_mul_two n
  rw [NET.completes, midState]
  by_cases hmem : n - 1 ∈ s'
  · simp only [hmem, if_true]
    have h1 : ((n : Int) ≠ -1) := by omega
    have hdiv : (n : Int) * ((n : Int) + 1) / 2 = ((∑ i ∈ Finset.range n, (i + 1) : Nat) : Int) := by
      have h2 : ((∑ i ∈ Finset.range n, (i + 1) : Nat) : Int) * 2 = (n : Int) * ((n : Int) + 1) := by
        exact_mod_cast congrArg (fun x : Nat => (x : Int)) hT2
      omega
    constructor
    · rintro ⟨-, hsum⟩
      rw [hdiv, Nat.cast_inj] at hsum
      exact (sum_subset_eq_iff hsub).mp hsum
    · intro h
      refine ⟨h1, ?_⟩
      rw [hdiv, Nat.cast_inj, h]
  · simp only [hmem, if_false]
    constructor
    · rintro ⟨habs, -⟩
      exact absurd rfl habs
    · intro h
      subst h
      exact absurd (Finset.mem_range.mpr (by omega)) hmem

theorem listenStep_mid {α : Type} (p : Nat → α) (n : Nat) (hn : 0 < n) (s : Finset Nat)
    (i : Nat) (hi : i < n) (his : i ∉ s) (hs : s ⊆ Finset.range n) :
    NET.listenStep (some (midState p n s)) i (decide (i = n - 1)) (p i)
      = if insert i s = Finset.range n then
          (none, some ((List.range n).map (fun j => some (p j))))
        else (some (midState p n (insert i s)), none) := by
  have hsub' : insert i s ⊆ Finset.range n :=
    Finset.insert_subset_iff.mpr ⟨Finset.mem_range.mpr hi, hs⟩
  have hfrag : NET.updateFrag (midState p n s) i (decide (i = n - 1)) (p i)
      = midState p n (insert i s) := by
    rw [NET.updateFrag]
    simp only [midState]
    congr 1
    · by_cases hin : i = n - 1
      · subst hin
        have hmem : n - 1 ∈ insert (n - 1) s := Finset.mem_insert_self _ s
        have h1 : n - 1 + 1 = n := by omega
        simp [hmem, h1]
      · have hmem : (n - 1 ∈ insert i s) ↔ (n - 1 ∈ s) := by
          rw [Finset.mem_insert]
          constructor
          · rintro (h | h)
            · exact absurd h.symm hin
            · exact h
          · exact Or.inr
        simp only [hin, decide_False, Bool.false_eq_true, if_false, hmem]
    · funext j
      by_cases hj : j = i
      · subst hj
        simp [Finset.mem_insert_self]
      · simp only [hj, if_false, Finset.mem_insert, hj, false_or]
    · rw [Finset.sup_insert]
      exact sup_comm _ _
    · rw [Finset.sum_insert his]
      omega
  rw [NET.listenStep]
  simp only [Option.getD_some, hfrag]
  simp only [completes_midState_iff p n hn hsub']
  by_cases hcond : insert i s = Finset.range n
  · rw [if_pos hcond, if_pos hcond]
    refine congrArg (fun l => ((none : Option (NET.FragState α)), some l)) ?_
    simp only [midState, hcond, sup_range_add_one]
    apply List.map_congr_left
    intro j hj
    rw [if_pos (Finset.mem_range.mpr (List.mem_range.mp hj))]
  · rw [if_neg hcond, if_neg hcond]

theorem listenRunFrom_mid {α : Type} (p : Nat → α) (n : Nat) (hn : 0 < n) :
    ∀ (is : List Nat) (s : Finset Nat), is.Nodup → (∀ i ∈ is, i < n) →
      (∀ i ∈ is, i ∉ s) → s ⊆ Finset.range n →
      NET.listenRunFrom (some (midState p n s)) (is.map (NET.fragOf p n))
        = if s ∪ is.toFinset = Finset.range n ∧ is ≠ [] then
            (none, [(List.range n).map (fun j => some (p j))])
          else (some (midState p n (s ∪ is.toFinset)), []) := by
  intro is
  induction is with
  | nil =>
    intro s _ _ _ _
    rw [List.map_nil, NET.listenRunFrom]
    simp
  | cons i rest ih =>
    intro s hnd hb hdisj hs
    have hi : i < n := hb i (by simp)
    have his : i ∉ s := hdisj i (by simp)
    have hstep := listenStep_mid p n hn s i hi his hs
    rw [List.map_cons, NET.listenRunFrom]
    simp only [NET.fragOf, hstep]
    by_cases hcond : insert i s = Finset.range n
    · have hrest : rest = [] := by
        cases rest with
        | nil => rfl
        | cons j tl =>
          exfalso
          have hj : j ∈ Finset.range n := Finset.mem_range.mpr (hb j (by simp))
          rw [← hcond] at hj
          rcases Finset.mem_insert.mp hj with h | h
          · exact (List.nodup_cons.mp hnd).1 (h ▸ List.mem_cons_self j tl)
          · exact hdisj j (by simp) h
      subst hrest
      rw [if_pos hcond]
      simp only [List.map_nil, NET.listenRunFrom, Option.toList_some, List.cons_append,
        List.nil_append]
      have hun : s ∪ [i].toFinset = insert i s := by
        simp [Finset.union_comm, Finset.insert_eq]
      rw [if_pos ⟨by rw [hun, hcond], by simp⟩]
    · rw [if_neg hcond]
      have hnd' : rest.Nodup := (List.nodup_cons.mp hnd).2
      have hinotin : i ∉ rest := (List.nodup_cons.mp hnd).1
      have hdisj' : ∀ j ∈ rest, j ∉ insert i s := by
        intro j hj
        rw [Finset.mem_insert]
        rintro (h | h)
        · exact hinotin (h ▸ hj)
        · exact hdisj j (by simp [hj]) h
      have hsub' : insert i s ⊆ Finset.range n :=
        Finset.insert_subset_iff.mpr ⟨Finset.mem_range.mpr hi, hs⟩
      rw [ih (insert i s) hnd' (fun j hj => hb j (by simp [hj])) hdisj' hsub']
      have hun : insert i s ∪ rest.toFinset = s ∪ (i :: rest).toFinset := by
        rw [List.toFinset_cons, Finset.union_insert, Finset.insert_union]
      by_cases hfull : insert i s ∪ rest.toFinset = Finset.range n
      · have hrestne : rest ≠ [] := by
          intro h
          subst h
          simp only [List.toFinset_nil, Finset.union_empty] at hfull
          exact hcond hfull
        rw [if_pos ⟨hfull, hrestne⟩, if_pos ⟨by rw [← hun, hfull], by simp⟩]
        simp
      · have h2 : ¬(s ∪ (i :: rest).toFinset = Finset.range n ∧ i :: rest ≠ []) := by
          rintro ⟨h, -⟩
          exact hfull (by rw [hun, h])
        rw [if_neg (fun hc => hfull hc.1), if_neg h2]
        simp [hun]

theorem listenRunFrom_none_cons {α : Type} (d : Nat × Bool × α) (ds : List (Nat × Bool × α)) :
    NET.listenRunFrom none (d :: ds)
      = NET.listenRunFrom (some NET.FragState.fresh) (d :: ds) := rfl

theorem listenRun_fragOf {α : Type} (p : Nat → α) (n : Nat) (hn : 0 < n) (is : List Nat)
    (hnd : is.Nodup) (hb : ∀ i ∈ is, i < n) :
    NET.listenRun (is.map (NET.fragOf p n))
      = if is.toFinset = Finset.range n ∧ is ≠ [] then
          (none, [(List.range n).map (fun j => some (p j))])
        else (if is = [] then none else some (midState p n is.toFinset), []) := by
  cases is with
  | nil =>
    rw [NET.listenRun, List.map_nil, NET.listenRunFrom]
    simp
  | cons i rest =>
    rw [NET.listenRun, List.map_cons, listenRunFrom_none_cons, ← midState_empty p n,
      ← List.map_cons, listenRunFrom_mid p n hn (i :: rest) ∅ hnd hb (by simp) (by simp)]
    simp only [Finset.empty_union]
    have hne : (i :: rest : List Nat) ≠ [] := by simp
    by_cases hcond : (i :: rest).toFinset = Finset.range n
    · rw [if_pos ⟨hcond, hne⟩, if_pos ⟨hcond, hne⟩]
    · rw [if_neg (fun hc => hcond hc.1), if_neg (fun hc => hcond hc.1), if_neg hne]

/-- C3 (amended): for fragments as `NET.emit` tags them (final flag exactly
on index `k`), provided each index is delivered at most once and every
delivered index is at most `k`, the completion test fires — the chunk array
is handed to the decode pipeline — if and only if exactly the fragments
`0..k` have each been delivered once, regardless of arrival order.  Without
the at-most-once condition the test can pass with fragments missing, because
`running_sum` adds `index + 1` once per DELIVERY, not per distinct fragment
(see the duplicate-delivery counterexample). -/
theorem reassembly_complete_iff {α : Type} (p : Nat → α) (k : Nat) (is : List Nat)
    (hnd : is.Nodup) (hb : ∀ i ∈ is, i ≤ k) :
    (NET.listenRun (is.map (NET.fragOf p (k + 1)))).2 ≠ [] ↔ ∀ i, i ≤ k → i ∈ is := by
  rw [listenRun_fragOf p (k + 1) (by omega) is hnd (fun i hi => by have := hb i hi; omega)]
  by_cases hcond : is.toFinset = Finset.range (k + 1) ∧ is ≠ []
  · rw [if_pos hcond]
    constructor
    · intro _ i hi
      have hmem : i ∈ is.toFinset := by
        rw [hcond.1]
        exact Finset.mem_range.mpr (by omega)
      simpa using hmem
    · intro _
      simp
  · rw [if_neg hcond]
    constructor
    · intro h
      exact absurd rfl h
    · intro hall
      exfalso
      apply hcond
      constructor
      · ext x
        simp only [List.mem_toFinset, Finset.mem_range]
        constructor
        · intro hx
          have := hb x hx
          omega
        · intro hx
          exact hall x (by omega)
      · intro hnil
        subst hnil
        exact absurd (hall 0 (by omega)) (by simp)

/-- Witness for C3: fragments `{0, 1, 2}` delivered out of order with final
at index 2 complete; the iff instance also certifies that dropping index 1
would block completion. -/
theorem reassembly_complete_iff_witness :
    ([2, 0, 1] : List Nat).Nodup
  ∧ (∀ i ∈ ([2, 0, 1] : List Nat), i ≤ 2)
  ∧ ((NET.listenRun (([2, 0, 1] : List Nat).map (NET.fragOf (fun _ => (0 : Nat)) (2 + 1)))).2
        ≠ [] ↔ ∀ i, i ≤ 2 → i ∈ ([2, 0, 1] : List Nat)) :=
  ⟨by decide, by decide,
   reassembly_complete_iff (fun _ => 0) 2 [2, 0, 1] (by decide) (by decide)⟩

theorem range_map_getD {α : Type} (dflt : α) : ∀ msg : List α,
    (List.range msg.length).map (fun j => some (msg.getD j dflt)) = msg.map some := by
  intro msg
  induction msg with
  | nil => rfl
  | cons a t ih =>
    simp only [List.length_cons, List.range_succ_eq_map, List.map_cons, List.map_map,
      List.getD_cons_zero, List.map_cons]
    show some a :: List.map (fun j => some (t.getD j dflt)) (List.range t.length)
      = some a :: List.map some t
    rw [ih]

/-- C4: a message `NET.emit` split into the chunks `msg` (fragments
`0..msg.length-1`, final only on the last), each fragment delivered exactly
once in an arbitrary order `is`: the callback pipeline receives exactly one
chunk array, upon the last delivery (every proper prefix of the delivery
sequence produces no output), that array is the chunks in index order —
hence the decoded value equals the one for in-index-order delivery — and the
guid's reassembly record is deleted afterwards (`.1 = none`). -/
theorem reassembly_order_independent {α : Type} (dflt : α) (msg : List α) (is : List Nat)
    (hne : msg ≠ []) (hperm : is.Perm (List.range msg.length)) :
    ((NET.listenRun (is.map (NET.fragOf (fun i => msg.getD i dflt) msg.length))).1 = none
  ∧ (NET.listenRun (is.map (NET.fragOf (fun i => msg.getD i dflt) msg.length))).2
      = [msg.map some])
  ∧ (NET.listenRun (is.map (NET.fragOf (fun i => msg.getD i dflt) msg.length))).2
      = (NET.listenRun ((List.range msg.length).map
          (NET.fragOf (fun i => msg.getD i dflt) msg.length))).2
  ∧ (∀ m, m < is.length →
      (NET.listenRun ((is.take m).map (NET.fragOf (fun i => msg.getD i dflt) msg.length))).2
        = []) := by
  have hn : 0 < msg.length := List.length_pos.mpr hne
  have hnd : is.Nodup := hperm.symm.nodup (List.nodup_range msg.length)
  have hbn : ∀ i ∈ is, i < msg.length := fun i hi => List.mem_range.mp (hperm.mem_iff.mp hi)
  have htf : is.toFinset = Finset.range msg.length := by
    rw [List.toFinset_eq_of_perm _ _ hperm]
    ext x
    simp
  have hlen : is.length = msg.length := hperm.length_eq.trans (List.length_range _)
  have hisne : is ≠ [] := by
    intro h
    subst h
    simp at hlen
    omega
  have hmain := listenRun_fragOf (fun i => msg.getD i dflt) msg.length hn is hnd hbn
  rw [if_pos ⟨htf, hisne⟩, range_map_getD dflt msg] at hmain
  have hinorder := listenRun_fragOf (fun i => msg.getD i dflt) msg.length hn
    (List.range msg.length) (List.nodup_range _) (fun i hi => List.mem_range.mp hi)
  rw [if_pos ⟨by ext x; simp, by rw [ne_eq, List.range_eq_nil]; omega⟩,
    range_map_getD dflt msg] at hinorder
  refine ⟨⟨by rw [hmain], by rw [hmain]⟩, by rw [hmain, hinorder], ?_⟩
  intro m hm
  have hndt : (is.take m).Nodup := List.Nodup.sublist (List.take_sublist m is) hnd
  have hbt : ∀ i ∈ is.take m, i < msg.length := fun i hi => hbn i (List.take_subset m is hi)
  have hcard : (is.take m).toFinset.card = m := by
    rw [List.toFinset_card_of_nodup hndt, List.length_take]
    omega
  have hneq : (is.take m).toFinset ≠ Finset.range msg.length := by
    intro h
    rw [h, Finset.card_range] at hcard
    omega
  rw [listenRun_fragOf (fun i => msg.getD i dflt) msg.length hn (is.take m) hndt hbt,
    if_neg (fun hc => hneq hc.1)]

/-- Witness for C4: three chunks delivered in the order `2, 0, 1`. -/
theorem reassembly_order_independent_witness :
    ([10, 20, 30] : List Nat) ≠ []
  ∧ ([2, 0, 1] : List Nat).Perm (List.range ([10, 20, 30] : List Nat).length)
  ∧ ((NET.listenRun (([2, 0, 1] : List Nat).map
        (NET.fragOf (fun i => ([10, 20, 30] : List Nat).getD i 0)
          ([10, 20, 30] : List Nat).length))).1 = none
      ∧ (NET.listenRun (([2, 0, 1] : List Nat).map
          (NET.fragOf (fun i => ([10, 20, 30] : List Nat).getD i 0)
            ([10, 20, 30] : List Nat).length))).2 = [([10, 20, 30] : List Nat).map some]) :=
  ⟨by decide, by decide,
   (reassembly_order_independent 0 [10, 20, 30] [2, 0, 1] (by decide) (by decide)).1⟩

/-! ## Bridge: the `Buffer` structure and the byte-list codec model

The list-level codec embedding above operates on the live window
`to_uint8array`; these two lemmas justify it against the `Buffer` structure:
`write` appends the (coerced) byte at the end of the live window and keeps
the well-formedness `end ≤ capacity`, and a successful `consume` drops from
its front. -/

theorem Buffer_consume_live {b : PROTO.Buffer} {n off : Nat} {b' : PROTO.Buffer}
    (h : b.consume n = .ok (off, b')) :
    off = b.offset ∧ n ≤ b.length ∧ b'.to_uint8array = b.to_uint8array.drop n := by
  rw [PROTO.Buffer.consume] at h
  by_cases hle : n > b.length
  · rw [if_pos hle] at h
    simp at h
  · rw [if_neg hle] at h
    simp only [Except.ok.injEq, Prod.mk.injEq, PROTO.Buffer.front] at h
    obtain ⟨h1, h2⟩ := h
    subst h2
    refine ⟨h1.symm, by omega, ?_⟩
    rw [PROTO.Buffer.to_uint8array, PROTO.Buffer.to_uint8array]
    have key : ((b.buffer.drop b.offset).take b.length).drop n
        = ((b.buffer.drop b.offset).drop n).take (b.length - n) := by
      have := (List.take_drop n (b.length - n) (b.buffer.drop b.offset)).symm
      rwa [show n + (b.length - n) = b.length by omega] at this
    rw [key, List.drop_drop]

theorem Buffer_writeByte_live {b : PROTO.Buffer} (hwf : b.end_ ≤ b.buffer.length) (x : Nat) :
    (b.writeByte x).to_uint8array = b.to_uint8array ++ [x % 256]
  ∧ (b.writeByte x).end_ ≤ (b.writeByte x).buffer.length := by
  rw [PROTO.Buffer.writeByte, PROTO.Buffer.reserve, PROTO.Buffer.ensure_capacity]
  rw [PROTO.Buffer.end_] at hwf ⊢
  by_cases hgrow : b.end_ + 1 > b.buffer.length
  · rw [if_pos hgrow]
    rw [PROTO.Buffer.end_] at hgrow
    simp only [PROTO.Buffer.end_, PROTO.Buffer.to_uint8array, List.drop_zero]
    have hlive : ((b.buffer.drop b.offset).take b.length).length = b.length := by
      rw [List.length_take, List.length_drop]
      omega
    set live := (b.buffer.drop b.offset).take b.length with hlivedef
    set Z := (b.length + b.offset + 1) * 2 - b.length with hZ
    have hZ1 : 1 ≤ Z := by omega
    have hset : (live ++ List.replicate Z 0).set (b.length + 0) (x % 256)
        = live ++ (x % 256) :: List.replicate (Z - 1) 0 := by
      rw [List.set_append_right _ _ (by omega)]
      congr 1
      rw [show Z = Z - 1 + 1 by omega, List.replicate_succ]
      rw [show b.length + 0 - live.length = 0 by omega, List.set_cons_zero]
      simp
    constructor
    · rw [hset]
      rw [show b.length + 0 + 1 = live.length + 1 by omega, List.take_append]
      rfl
    · rw [hset]
      simp only [List.length_append, List.length_cons, List.length_replicate]
      omega
  · rw [if_neg hgrow]
    rw [PROTO.Buffer.end_] at hgrow
    simp only [PROTO.Buffer.end_, PROTO.Buffer.to_uint8array, List.length_set]
    have hdrop : (b.buffer.set (b.length + b.offset) (x % 256)).drop b.offset
        = (b.buffer.drop b.offset).set b.length (x % 256) := by
      rw [List.drop_set]
      rw [if_neg (by omega)]
      congr 1
      omega
    constructor
    · rw [hdrop]
      have hlen : b.length < (b.buffer.drop b.offset).length := by
        rw [List.length_drop]
        omega
      rw [List.set_eq_take_cons_drop _ hlen]
      have htk : ((b.buffer.drop b.offset).take b.length).length = b.length := by
        rw [List.length_take, List.length_drop]
        omega
      rw [show b.length + 1 = ((b.buffer.drop b.offset).take b.length).length + 1 by omega,
        List.take_append]
      simp
    · omega
